import Mathlib

/-!
Verification development for the epstein-files-browser repository.

The definitions below are shallow embeddings of the repository's code:
* `apiFiles` embeds the `GET /api/files` handler of `src/worker/index.ts`
  (cursor-based listing over an R2 bucket, filtering to `.pdf` keys).
* `apiFilesByKeys` embeds the `POST /api/files-by-keys` handler.
* `prefetchStart` / `prefetchFinishSuccess` / `prefetchFinishFailure` embed the
  synchronous guard and the completion paths of `prefetchPdf`
  (`src/app/file/[...path]/page.tsx`, `src/app/file-browser.tsx`).
* `LoadQueueState` with `addTask` / `finishTask` embeds the `LoadQueue` class
  of `src/app/page.tsx`.
* `getAdjacentFile` embeds the function of the same name in
  `src/lib/files-context.tsx`.
* `sortFiles` embeds the comparator `switch` of `filteredFiles` in
  `src/app/file-browser.tsx`, applied through a stable sort (ES2019
  `Array.prototype.sort` is stable; a stable insertion sort is its
  extensional model for a consistent comparator).
-/

/-- Lexicographic code-point comparison of character lists: the order JS `<`
uses on the (ASCII) storage keys, and the order R2 enumerates keys in. -/
def charListLt : List Char → List Char → Bool
  | [], [] => false
  | [], _ :: _ => true
  | _ :: _, [] => false
  | a :: as, b :: bs =>
      if a.toNat < b.toNat then true
      else if b.toNat < a.toNat then false
      else charListLt as bs

/-- Strict lexicographic order on strings (JS `a < b` for ASCII keys). -/
def strLt (a b : String) : Bool := charListLt a.data b.data

/-- A stored object's metadata as the worker sees it (`R2Object`):
storage key, byte size and upload time (modelled as an integer timestamp,
the value `new Date(...).getTime()` yields on the client). -/
structure Obj where
  key : String
  size : Int
  uploaded : Int
deriving DecidableEq, Repr

/-- A JavaScript number that is either an integer or `NaN`; the listing
handler's `limit` is `Math.min(parseInt(...), 1000)` and `parseInt` can
produce `NaN`. -/
inductive JsNum where
  | nan : JsNum
  | int : Int → JsNum
deriving DecidableEq, Repr

/-- `Math.min(x, j)` for an integer literal `j`: `NaN` propagates. -/
def jsMin : JsNum → Int → JsNum
  | .nan, _ => .nan
  | .int i, j => .int (min i j)

/-- The JS comparison `n <= lim` (used in `while (files.length <= limit)`);
any comparison with `NaN` is `false`. -/
def jsLe (n : Nat) : JsNum → Bool
  | .nan => false
  | .int i => decide ((n : Int) ≤ i)

/-- The JS comparison `lim < n` (used in `files.length > limit`);
any comparison with `NaN` is `false`. -/
def jsLtNat (lim : JsNum) (n : Nat) : Bool :=
  match lim with
  | .nan => false
  | .int i => decide (i < (n : Int))

/-- The end index `Array.prototype.slice(0, e)` actually uses: `NaN` becomes
`0`, a negative index counts from the end, and the index is clamped to the
length. -/
def jsSliceEnd (len : Nat) : JsNum → Nat
  | .nan => 0
  | .int i => if i < 0 then (len + i).toNat else min i.toNat len

/-- `files.slice(0, e)` on a list. -/
def jsSlice (l : List Obj) (e : JsNum) : List Obj :=
  l.take (jsSliceEnd l.length e)

/-- `obj.key.toLowerCase().endsWith(".pdf")` — the worker's filter keeping
only PDF documents. -/
def qualObj (o : Obj) : Bool :=
  List.isSuffixOf ".pdf".data (o.key.data.map Char.toLower)

/-- Which bucket entries an R2 `list({ prefix, startAfter })` enumeration
yields: keys with the given prefix, strictly after the `startAfter` key when
one is given.  (`startAfter` is the worker's `cursor` parameter.) -/
def keepMatch (pfx : String) (cursor : Option String) (o : Obj) : Bool :=
  List.isPrefixOf pfx.data o.key.data &&
    (match cursor with
     | none => true
     | some c => strLt c o.key)

/-- All bucket entries the pagination session can see, in the bucket's
natural enumeration order. -/
def matchingAfter (bucket : List Obj) (pfx : String) (cursor : Option String) :
    List Obj :=
  bucket.filter (keepMatch pfx cursor)

/-- The qualifying (PDF) entries the session can see, in order. -/
def qualList (bucket : List Obj) (pfx : String) (cursor : Option String) :
    List Obj :=
  (matchingAfter bucket pfx cursor).filter qualObj

/-- The worker's batch-fetch loop
(`while (files.length <= limit && hasMoreInBucket)`), fetching underlying
batches of 1000 and accumulating the qualifying entries.  `remaining` is the
part of the enumeration the R2 cursor has not yet served; `hm` is
`hasMoreInBucket` (initially `true`).  `fuel` only bounds the recursion and
never runs out when `fuel ≥ remaining.length`. -/
def fetchLoopAux (lim : JsNum) : Nat → List Obj → List Obj → Bool →
    List Obj × Bool
  | _, [], files, hm =>
      -- an exhausted enumeration: the loop body (if entered) fetches an empty
      -- batch, sets `hasMoreInBucket := false` and exits on the next check
      if jsLe files.length lim && hm then (files, false) else (files, hm)
  | 0, _ :: _, files, hm => (files, hm)
  | fuel + 1, remaining@(_ :: _), files, hm =>
      if jsLe files.length lim && hm then
        fetchLoopAux lim fuel (remaining.drop 1000)
          (files ++ (remaining.take 1000).filter qualObj)
          (decide (remaining.drop 1000 ≠ []))
      else (files, hm)

/-- The batch-fetch loop started the way the handler starts it. -/
def fetchLoop (lim : JsNum) (remaining : List Obj) : List Obj × Bool :=
  fetchLoopAux lim remaining.length remaining [] true

/-- The listing endpoint's JSON response shape. -/
structure ListResult where
  files : List Obj
  truncated : Bool
  cursor : Option String
  totalReturned : Nat
deriving DecidableEq, Repr

/-- The `GET /api/files` handler of `src/worker/index.ts`: clamp the parsed
`limit` from above by 1000, loop fetching batches until more than `limit`
qualifying entries are collected or the bucket is exhausted, trim to
`limit`, and report the last returned key as the cursor when more remain.
`rawLimit` is the result of `parseInt(url.searchParams.get("limit") || "100")`
(so a missing parameter arrives here as `.int 100`). -/
def apiFiles (bucket : List Obj) (pfx : String) (cursor : Option String)
    (rawLimit : JsNum) : ListResult :=
  let lim := jsMin rawLimit 1000
  let res := fetchLoop lim (matchingAfter bucket pfx cursor)
  let hasMore := jsLtNat lim res.1.length || res.2
  let returnFiles := jsSlice res.1 lim
  { files := returnFiles
    truncated := hasMore
    cursor := if hasMore then returnFiles.getLast?.map (fun o => o.key) else none
    totalReturned := returnFiles.length }

/-- `a.key <= b.key` as a total preorder: the Boolean the worker's
`files.sort((a, b) => a.key.localeCompare(b.key))` sorts by (for the ASCII
storage keys, `localeCompare` agrees with code-point order). -/
def keyLe (a b : Obj) : Bool := !(strLt b.key a.key)

/-- A stable insertion into a list: the element goes in front of the first
entry it compares `le` to, behind everything it was preceded by.  Together
with `stableSort` this is the extensional model of ES2019's stable
`Array.prototype.sort` for a consistent comparator `le`. -/
def insertOrdered (le : Obj → Obj → Bool) (a : Obj) : List Obj → List Obj
  | [] => [a]
  | b :: t => if le a b then a :: b :: t else b :: insertOrdered le a t

/-- Stable sort by the total preorder `le` (insertion sort). -/
def stableSort (le : Obj → Obj → Bool) : List Obj → List Obj
  | [] => []
  | a :: t => insertOrdered le a (stableSort le t)

/-- `env.R2_BUCKET.head(key)`: the metadata of the object stored under `key`,
if any. -/
def headObj (bucket : List Obj) (k : String) : Option Obj :=
  bucket.find? (fun o => o.key == k)

/-- The `POST /api/files-by-keys` response shape. -/
structure ByKeysResult where
  files : List Obj
  totalReturned : Nat
deriving DecidableEq, Repr

/-- The `POST /api/files-by-keys` handler of `src/worker/index.ts`: `head`
each requested key, keep the hits (absent keys are silently skipped), sort
the hits by key, and report the count.  (The JS code collects the `head`
results in completion order and then sorts; since the sort key is total on
the collected entries, collecting in request order is an equivalent model.) -/
def apiFilesByKeys (bucket : List Obj) (keys : List String) : ByKeysResult :=
  let files := stableSort keyLe (keys.filterMap (headObj bucket))
  { files := files, totalReturned := files.length }

/-! ### Navigation (`src/lib/files-context.tsx`) -/

/-- JS `Array.prototype.findIndex`: index of the first element satisfying
`p`, or `-1`. -/
def findIndexJs (p : Obj → Bool) : List Obj → Int
  | [] => -1
  | a :: t =>
      if p a then 0
      else if findIndexJs p t = -1 then -1 else findIndexJs p t + 1

/-- `getAdjacentFile(currentPath, offset)` from `src/lib/files-context.tsx`:
find `currentPath` in the view, step by `offset`, and return the key there,
or `null` when the key is absent or the step leaves the view. -/
def getAdjacentFile (sortedFiles : List Obj) (currentPath : String)
    (offset : Int) : Option String :=
  let currentIndex := findIndexJs (fun f => f.key == currentPath) sortedFiles
  if currentIndex = -1 then none
  else
    let newIndex := currentIndex + offset
    if newIndex < 0 ∨ (sortedFiles.length : Int) ≤ newIndex then none
    else (sortedFiles.get? newIndex.toNat).map (fun o => o.key)

/-! ### The sort comparators of `file-browser.tsx` -/

/-- The longest digit prefix of a character list (`\\d+` with maximal munch). -/
def takeDigits (l : List Char) : List Char :=
  l.takeWhile fun c => c.isDigit

/-- Try to match the regex `EFTA\\d+` at the head of the character list. -/
def eftaMatchAt : List Char → Option (List Char)
  | 'E' :: 'F' :: 'T' :: 'A' :: rest =>
      match takeDigits rest with
      | [] => none
      | ds => some ('E' :: 'F' :: 'T' :: 'A' :: ds)
  | _ => none

/-- Scan for the first match of `EFTA\\d+` anywhere in the character list,
the way `String.prototype.match` does. -/
def findEfta : List Char → Option (List Char)
  | [] => none
  | c :: rest =>
      match eftaMatchAt (c :: rest) with
      | some m => some m
      | none => findEfta rest

/-- `getFileId(key)`: the first `EFTA\\d+` match in the key, or the whole key
when there is none. -/
def getFileId (key : String) : String :=
  match findEfta key.data with
  | some m => String.mk m
  | none => key

/-- The comparator `switch` in `filteredFiles` (`src/app/file-browser.tsx`,
`sortBy` cases `date-desc`, `date-asc`, `size-desc`, `size-asc`, and the
`name`/default case), as the total preorder `cmp(a, b) <= 0`. -/
def modeLe (mode : String) (a b : Obj) : Bool :=
  if mode == "date-desc" then decide (b.uploaded ≤ a.uploaded)
  else if mode == "date-asc" then decide (a.uploaded ≤ b.uploaded)
  else if mode == "size-desc" then decide (b.size ≤ a.size)
  else if mode == "size-asc" then decide (a.size ≤ b.size)
  else !(strLt (getFileId b.key) (getFileId a.key))

/-- The sorting step of `filteredFiles`: the (stable) `Array.prototype.sort`
applied with the selected comparator. -/
def sortFiles (mode : String) (files : List Obj) : List Obj :=
  stableSort (modeLe mode) files

/-! ### The render cache, prefetch set and `prefetchPdf` guard -/

/-- The mutable module state `prefetchPdf` works over: the
`pdfPagesCache` map, the `prefetchingSet`, and (for specification purposes)
the log of render invocations actually started. -/
structure PrefetchState where
  pdfPagesCache : List (String × List String)
  prefetching : List String
  renderLog : List String
deriving DecidableEq, Repr

/-- `getPdfPages(key)` of `src/lib/cache.ts`. -/
def getPdfPages (s : PrefetchState) (k : String) : Option (List String) :=
  (s.pdfPagesCache.find? (fun e => e.1 == k)).map (fun e => e.2)

/-- `setPdfPages(key, pages)` of `src/lib/cache.ts` (`Map.set`: last writer
wins, modelled by prepending to the association list). -/
def setPdfPages (s : PrefetchState) (k : String) (pages : List String) :
    PrefetchState :=
  { s with pdfPagesCache := (k, pages) :: s.pdfPagesCache }

/-- The synchronous prologue of `prefetchPdf(filePath)`: return unchanged if
the key is already cached or already prefetching; otherwise add it to the
prefetch set and start the render (single-threaded event loop: nothing can
interleave between the check and the insertion).  The Boolean reports
whether a render was started. -/
def prefetchStart (s : PrefetchState) (k : String) : PrefetchState × Bool :=
  if (getPdfPages s k).isSome || s.prefetching.contains k then (s, false)
  else
    ({ s with
        prefetching := k :: s.prefetching
        renderLog := s.renderLog ++ [k] }, true)

/-- Completion of `prefetchPdf`'s render with pages `pages`: store them when
non-empty (`if (renderedPages.length > 0) setPdfPages(...)`), then the
`finally` block removes the key from the prefetch set. -/
def prefetchFinishSuccess (s : PrefetchState) (k : String)
    (pages : List String) : PrefetchState :=
  let s1 := if pages.isEmpty then s else setPdfPages s k pages
  { s1 with prefetching := s1.prefetching.filter (fun x => !(x == k)) }

/-- Failure of `prefetchPdf`'s render: the `catch` writes nothing, the
`finally` block removes the key from the prefetch set. -/
def prefetchFinishFailure (s : PrefetchState) (k : String) : PrefetchState :=
  { s with prefetching := s.prefetching.filter (fun x => !(x == k)) }

/-! ### The `LoadQueue` of `src/app/page.tsx` -/

/-- `maxConcurrent = 3` in `LoadQueue`. -/
def maxConcurrent : Nat := 3

/-- The `LoadQueue`'s state: the pending `queue` (task identifiers), the
identifiers of the running tasks (`running` is their count in the JS code),
and, for specification purposes, the order tasks were started and submitted
in. -/
structure LoadQueueState where
  queue : List Nat
  running : List Nat
  started : List Nat
  submitted : List Nat
deriving DecidableEq, Repr

/-- One `process()` call: start the head of the queue if a slot is free
(`if (this.running >= this.maxConcurrent || this.queue.length === 0) return`,
then `running++; queue.shift(); task()`). -/
def processQueue (s : LoadQueueState) : LoadQueueState :=
  if maxConcurrent ≤ s.running.length then s
  else
    match s.queue with
    | [] => s
    | t :: rest =>
        { s with
          queue := rest
          running := t :: s.running
          started := s.started ++ [t] }

/-- `add(task)`: push the task and call `process()`. -/
def addTask (s : LoadQueueState) (t : Nat) : LoadQueueState :=
  processQueue { s with
    queue := s.queue ++ [t]
    submitted := s.submitted ++ [t] }

/-- A running task finishing: the `finally` block does `running--` and calls
`process()`. -/
def finishTask (s : LoadQueueState) (t : Nat) : LoadQueueState :=
  processQueue { s with running := s.running.erase t }

/-- The queue as constructed (`const loadQueue = new LoadQueue()`). -/
def initQueue : LoadQueueState := ⟨[], [], [], []⟩

/-- The states the `LoadQueue` can reach: tasks are added at any time, and
only running tasks finish. -/
inductive QueueReachable : LoadQueueState → Prop
  | init : QueueReachable initQueue
  | add (t : Nat) {s : LoadQueueState} :
      QueueReachable s → QueueReachable (addTask s t)
  | finish (t : Nat) {s : LoadQueueState} :
      t ∈ s.running → QueueReachable s → QueueReachable (finishTask s t)

/-! ### Concrete data for witnesses -/

/-- Demo objects: three qualifying PDF keys in ascending order. -/
def wObjA : Obj := ⟨"a.pdf", 1, 10⟩

def wObjB : Obj := ⟨"b.pdf", 2, 20⟩

def wObjC : Obj := ⟨"c.pdf", 3, 30⟩

def wBucket : List Obj := [wObjA, wObjB, wObjC]

/-- Two objects with equal sizes and distinct keys (for the tie-breaking
counterexample). -/
def tieX : Obj := ⟨"a.pdf", 5, 1⟩

def tieY : Obj := ⟨"b.pdf", 5, 2⟩

/-! ### Order facts about the key comparison -/

lemma charListLt_irrefl : ∀ l : List Char, charListLt l l = false := by
  intro l
  induction l with
  | nil => rfl
  | cons a as ih => simp [charListLt, ih]

lemma charListLt_asymm : ∀ l₁ l₂ : List Char,
    charListLt l₁ l₂ = true → charListLt l₂ l₁ = false := by
  intro l₁
  induction l₁ with
  | nil => intro l₂ h; cases l₂ <;> simp [charListLt] at h ⊢
  | cons a as ih =>
      intro l₂ h
      cases l₂ with
      | nil => simp [charListLt] at h
      | cons b bs =>
          simp only [charListLt] at h ⊢
          by_cases hab : a.toNat < b.toNat
          · simp [hab, Nat.lt_asymm hab, Nat.ne_of_gt hab]
          · by_cases hba : b.toNat < a.toNat
            · simp [hab, hba] at h
            · simp [hab, hba] at h ⊢
              exact ih bs h

lemma charListLt_trans : ∀ l₁ l₂ l₃ : List Char,
    charListLt l₁ l₂ = true → charListLt l₂ l₃ = true →
    charListLt l₁ l₃ = true := by
  intro l₁
  induction l₁ with
  | nil =>
      intro l₂ l₃ h₁ h₂
      cases l₂ with
      | nil => simp [charListLt] at h₁
      | cons b bs => cases l₃ with
        | nil => simp [charListLt] at h₂
        | cons c cs => simp [charListLt]
  | cons a as ih =>
      intro l₂ l₃ h₁ h₂
      cases l₂ with
      | nil => simp [charListLt] at h₁
      | cons b bs =>
          cases l₃ with
          | nil => simp [charListLt] at h₂
          | cons c cs =>
              simp only [charListLt] at h₁ h₂ ⊢
              by_cases hab : a.toNat < b.toNat
              · by_cases hbc : b.toNat < c.toNat
                · simp [Nat.lt_trans hab hbc]
                · by_cases hcb : c.toNat < b.toNat
                  · simp [hbc, hcb] at h₂
                  · have : b.toNat = c.toNat := Nat.le_antisymm (Nat.le_of_not_lt hcb) (Nat.le_of_not_lt hbc)
                    simp [← this, hab]
              · by_cases hba : b.toNat < a.toNat
                · simp [hab, hba] at h₁
                · have hab' : a.toNat = b.toNat := Nat.le_antisymm (Nat.le_of_not_lt hba) (Nat.le_of_not_lt hab)
                  simp only [hab, hba, if_false, if_true] at h₁
                  by_cases hbc : b.toNat < c.toNat
                  · simp [hab' ▸ hbc]
                  · by_cases hcb : c.toNat < b.toNat
                    · simp [hbc, hcb] at h₂
                    · simp only [hbc, hcb, if_false] at h₂
                      simp [hab' ▸ hbc, hab' ▸ hcb, ih bs cs h₁ h₂]

lemma charListLt_connex : ∀ l₁ l₂ : List Char,
    charListLt l₁ l₂ = false → charListLt l₂ l₁ = false → l₁ = l₂ := by
  intro l₁
  induction l₁ with
  | nil => intro l₂ h _; cases l₂ <;> simp_all [charListLt]
  | cons a as ih =>
      intro l₂ h₁ h₂
      cases l₂ with
      | nil => simp [charListLt] at h₂
      | cons b bs =>
          simp only [charListLt] at h₁ h₂
          by_cases hab : a.toNat < b.toNat
          · simp [hab] at h₁
          · by_cases hba : b.toNat < a.toNat
            · simp [hba, Nat.lt_asymm hba] at h₂
            · have hab' : a = b := Char.eq_of_val_eq (by
                have := Nat.le_antisymm (Nat.le_of_not_lt hba) (Nat.le_of_not_lt hab)
                exact UInt32.ext this)
              simp only [hab, hba, if_false] at h₁ h₂
              rw [hab', ih bs h₁ h₂]

lemma strLt_irrefl (a : String) : strLt a a = false := charListLt_irrefl a.data

lemma strLt_asymm {a b : String} (h : strLt a b = true) : strLt b a = false :=
  charListLt_asymm a.data b.data h

lemma strLt_trans {a b c : String} (h₁ : strLt a b = true)
    (h₂ : strLt b c = true) : strLt a c = true :=
  charListLt_trans a.data b.data c.data h₁ h₂

lemma strLt_connex {a b : String} (h₁ : strLt a b = false)
    (h₂ : strLt b a = false) : a = b := by
  cases a with
  | mk da =>
      cases b with
      | mk db => exact congrArg String.mk (charListLt_connex da db h₁ h₂)

/-- Keys strictly ascending: the bucket's natural enumeration order
(the stability assumption the spec documents for the R2 store). -/
def keysAscending (l : List Obj) : Prop :=
  l.Pairwise (fun x y => strLt x.key y.key = true)

/-! ### Generic list helpers -/

lemma take_min {α : Type} (l : List α) (n : Nat) :
    l.take (min n l.length) = l.take n := by
  rcases Nat.le_total n l.length with h | h
  · rw [Nat.min_eq_left h]
  · rw [Nat.min_eq_right h, List.take_of_length_le h, List.take_of_length_le le_rfl]

lemma getLast?_decomp {α : Type} {l : List α} {a : α}
    (h : l.getLast? = some a) : l = l.dropLast ++ [a] := by
  induction l with
  | nil => simp at h
  | cons x xs ih =>
      cases xs with
      | nil => simp_all
      | cons y ys =>
          rw [List.getLast?_cons_cons] at h
          have := ih h
          simpa using congrArg (x :: ·) this

/-- In a strictly ascending list split as `l₁ ++ a :: l₂`, filtering for keys
strictly greater than `a.key` yields exactly `l₂`. -/
lemma filter_gt_of_append (a : Obj) (l₁ l₂ : List Obj)
    (hs : keysAscending (l₁ ++ a :: l₂)) :
    (l₁ ++ a :: l₂).filter (fun o => strLt a.key o.key) = l₂ := by
  rw [List.filter_append]
  unfold keysAscending at hs
  rw [List.pairwise_append] at hs
  obtain ⟨_, hs₂, hcross⟩ := hs
  have h₁ : l₁.filter (fun o => strLt a.key o.key) = [] := by
    rw [List.filter_eq_nil_iff]
    intro x hx
    have hxa : strLt x.key a.key = true := hcross x hx a (by simp)
    simp [strLt_asymm hxa]
  have h₂ : (a :: l₂).filter (fun o => strLt a.key o.key) = l₂ := by
    rw [List.filter_cons_of_neg (by simp [strLt_irrefl])]
    rw [List.pairwise_cons] at hs₂
    exact List.filter_eq_self.mpr fun x hx => hs₂.1 x hx
  rw [h₁, h₂, List.nil_append]

/-! ### The batch-fetch loop's contract -/

lemma fetchLoopAux_spec (lim : JsNum) :
    ∀ (fuel : Nat) (remaining files : List Obj) (hm : Bool),
      remaining.length ≤ fuel →
      (hm = false → remaining = []) →
      ∃ m : Nat,
        (fetchLoopAux lim fuel remaining files hm).1
            = files ++ (remaining.take m).filter qualObj ∧
        ((fetchLoopAux lim fuel remaining files hm).2 = false →
          (fetchLoopAux lim fuel remaining files hm).1
            = files ++ remaining.filter qualObj) ∧
        ((fetchLoopAux lim fuel remaining files hm).2 = true →
          jsLe (fetchLoopAux lim fuel remaining files hm).1.length lim = false) := by
  intro fuel
  induction fuel with
  | zero =>
      intro remaining files hm hlen hhm
      have hrem : remaining = [] := List.length_eq_zero.mp (Nat.le_zero.mp hlen)
      subst hrem
      by_cases hc : (jsLe files.length lim && hm) = true
      · refine ⟨0, ?_, ?_, ?_⟩ <;> simp [fetchLoopAux, hc]
      · rw [Bool.not_eq_true] at hc
        have hres : fetchLoopAux lim 0 [] files hm = (files, hm) := by
          rw [fetchLoopAux, if_neg (by simp [hc])]
        refine ⟨0, ?_, ?_, ?_⟩ <;> rw [hres]
        · simp
        · intro _; simp
        · intro hmt
          simp only at hmt
          rw [hmt, Bool.and_true] at hc
          exact hc
  | succ fuel ih =>
      intro remaining files hm hlen hhm
      cases remaining with
      | nil =>
          by_cases hc : (jsLe files.length lim && hm) = true
          · refine ⟨0, ?_, ?_, ?_⟩ <;> simp [fetchLoopAux, hc]
          · rw [Bool.not_eq_true] at hc
            have hres : fetchLoopAux lim (fuel + 1) [] files hm = (files, hm) := by
              rw [fetchLoopAux, if_neg (by simp [hc])]
            refine ⟨0, ?_, ?_, ?_⟩ <;> rw [hres]
            · simp
            · intro _; simp
            · intro hmt
              simp only at hmt
              rw [hmt, Bool.and_true] at hc
              exact hc
      | cons x xs =>
          by_cases hc : (jsLe files.length lim && hm) = true
          · have hstep : fetchLoopAux lim (fuel + 1) (x :: xs) files hm
                = fetchLoopAux lim fuel ((x :: xs).drop 1000)
                    (files ++ ((x :: xs).take 1000).filter qualObj)
                    (decide ((x :: xs).drop 1000 ≠ [])) := by
              rw [fetchLoopAux, if_pos hc]
            have hlen' : ((x :: xs).drop 1000).length ≤ fuel := by
              rw [List.length_drop]
              simp only [List.length_cons] at hlen ⊢
              omega
            have hhm' : decide ((x :: xs).drop 1000 ≠ []) = false →
                (x :: xs).drop 1000 = [] := by
              intro h
              simpa using h
            obtain ⟨m', h1, h2, h3⟩ := ih ((x :: xs).drop 1000)
              (files ++ ((x :: xs).take 1000).filter qualObj)
              (decide ((x :: xs).drop 1000 ≠ [])) hlen' hhm'
            refine ⟨1000 + m', ?_, ?_, ?_⟩
            · rw [hstep, h1, List.take_add, List.filter_append, List.append_assoc]
            · intro hf
              rw [hstep] at hf ⊢
              rw [h2 hf, List.append_assoc, ← List.filter_append,
                List.take_append_drop]
            · intro hf
              rw [hstep] at hf ⊢
              exact h3 hf
          · rw [Bool.not_eq_true] at hc
            have hres : fetchLoopAux lim (fuel + 1) (x :: xs) files hm
                = (files, hm) := by
              rw [fetchLoopAux, if_neg (by simp [hc])]
            refine ⟨0, ?_, ?_, ?_⟩ <;> rw [hres]
            · simp
            · intro hmf
              simp only at hmf
              exact absurd (hhm hmf) (by simp)
            · intro hmt
              simp only at hmt
              rw [hmt, Bool.and_true] at hc
              exact hc

/-- What `GET /api/files` returns: exactly the first
`min(limit, 1000)` qualifying entries after the cursor, in the bucket's
enumeration order (for an integer, non-negative parsed limit). -/
lemma apiFiles_files (bucket : List Obj) (pfx : String) (cursor : Option String)
    (i : Int) (hi : 0 ≤ i) :
    (apiFiles bucket pfx cursor (.int i)).files
      = (qualList bucket pfx cursor).take (min i 1000).toNat := by
  have hj : (0 : Int) ≤ min i 1000 := le_min hi (by norm_num)
  obtain ⟨m, h1, h2, h3⟩ := fetchLoopAux_spec (.int (min i 1000))
    (matchingAfter bucket pfx cursor).length (matchingAfter bucket pfx cursor)
    [] true le_rfl (by simp)
  set M := matchingAfter bucket pfx cursor with hM
  set res := fetchLoopAux (.int (min i 1000)) M.length M [] true with hres
  have hfiles : (apiFiles bucket pfx cursor (.int i)).files
      = jsSlice res.1 (.int (min i 1000)) := by
    simp only [apiFiles, jsMin, fetchLoop, hres, hM]
  rw [hfiles]
  have hslice : jsSlice res.1 (.int (min i 1000)) = res.1.take (min i 1000).toNat := by
    rw [jsSlice, jsSliceEnd, if_neg (by omega)]
    exact take_min res.1 (min i 1000).toNat
  rw [hslice]
  rw [List.nil_append] at h1 h2
  have hsegment : qualList bucket pfx cursor
      = res.1 ++ (M.drop m).filter qualObj := by
    rw [qualList, ← hM, h1, ← List.filter_append, List.take_append_drop]
  cases hend : res.2 with
  | false =>
      rw [h2 hend, qualList, ← hM]
  | true =>
      have hlt : (min i 1000) < (res.1.length : Int) := by
        have h := h3 hend
        simp only [jsLe, decide_eq_false_iff_not, not_le] at h
        exact h
      have hle : (min i 1000).toNat ≤ res.1.length := by omega
      rw [hsegment, List.take_append_of_le_length hle]

lemma fetchLoopAux_neg (lim : JsNum) (fuel : Nat) (remaining files : List Obj)
    (hm : Bool) (h : jsLe files.length lim = false) :
    fetchLoopAux lim fuel remaining files hm = (files, hm) := by
  cases remaining with
  | nil => rw [fetchLoopAux, if_neg (by simp [h])]
  | cons x xs =>
      cases fuel with
      | zero => rw [fetchLoopAux]
      | succ n => rw [fetchLoopAux, if_neg (by simp [h])]

lemma qualList_cursor (bucket : List Obj) (pfx : String) (c : String) :
    qualList bucket pfx (some c)
      = (qualList bucket pfx none).filter (fun o => strLt c o.key) := by
  unfold qualList matchingAfter
  rw [List.filter_filter, List.filter_filter, List.filter_filter]
  apply List.filter_congr
  intro o _
  simp only [keepMatch]
  cases List.isPrefixOf pfx.data o.key.data <;>
    cases strLt c o.key <;> cases qualObj o <;> rfl

lemma qualList_pairwise {bucket : List Obj} (hs : keysAscending bucket)
    (pfx : String) (cursor : Option String) :
    keysAscending (qualList bucket pfx cursor) := by
  unfold keysAscending at hs ⊢
  unfold qualList matchingAfter
  exact (hs.sublist (List.filter_sublist bucket)).sublist (List.filter_sublist _)

lemma apiFiles_cursor_some (bucket : List Obj) (pfx : String)
    (cursor : Option String) (rawLimit : JsNum) (c : String)
    (hc : (apiFiles bucket pfx cursor rawLimit).cursor = some c) :
    ∃ a, (apiFiles bucket pfx cursor rawLimit).files.getLast? = some a ∧
      a.key = c := by
  dsimp only [apiFiles] at hc ⊢
  split at hc
  · obtain ⟨a, ha, hk⟩ := Option.map_eq_some'.mp hc
    exact ⟨a, ha, hk⟩
  · exact absurd hc (by simp)

/-- C1: for a strictly ascending bucket (the stable natural enumeration
order), resuming `GET /api/files` with the cursor a prior call returned and
the same prefix continues exactly where the prior call stopped: the two
calls' `files` lists, concatenated, form an initial segment of the full
qualifying stream — no key is duplicated across the calls and none is
skipped. -/
theorem listCursorResume (bucket : List Obj) (pfx : String) (i₁ i₂ : Int)
    (c : String) (hsorted : keysAscending bucket)
    (h₁ : 0 ≤ i₁) (h₂ : 0 ≤ i₂)
    (hc : (apiFiles bucket pfx none (.int i₁)).cursor = some c) :
    ∃ rest, qualList bucket pfx none =
      (apiFiles bucket pfx none (.int i₁)).files
        ++ ((apiFiles bucket pfx (some c) (.int i₂)).files ++ rest) := by
  obtain ⟨a, hlast, hak⟩ := apiFiles_cursor_some bucket pfx none (.int i₁) c hc
  have hf1 : (apiFiles bucket pfx none (.int i₁)).files
      = (qualList bucket pfx none).take (min i₁ 1000).toNat :=
    apiFiles_files bucket pfx none i₁ h₁
  set Q := qualList bucket pfx none with hQ
  set r1 := (apiFiles bucket pfx none (.int i₁)).files with hr1
  -- `r1` is an initial segment of `Q`
  have htake : Q.take r1.length = r1 := by
    rw [hf1, List.length_take, take_min, ← hf1]
  have hsplit : Q = r1 ++ Q.drop r1.length := by
    conv_lhs => rw [← List.take_append_drop r1.length Q]
    rw [htake]
  -- expose the last returned element
  have hdecomp : r1 = r1.dropLast ++ [a] := getLast?_decomp hlast
  have hsplit' : Q = r1.dropLast ++ (a :: Q.drop r1.length) := by
    calc Q = r1 ++ Q.drop r1.length := hsplit
      _ = (r1.dropLast ++ [a]) ++ Q.drop r1.length := by rw [← hdecomp]
      _ = r1.dropLast ++ (a :: Q.drop r1.length) := by
          rw [List.append_assoc, List.singleton_append]
  -- what the resumed call can see is exactly what was not yet returned
  have hQ2 : qualList bucket pfx (some c) = Q.drop r1.length := by
    rw [qualList_cursor, ← hQ, ← hak]
    conv_lhs => rw [hsplit']
    exact filter_gt_of_append a r1.dropLast (Q.drop r1.length)
      (hsplit' ▸ qualList_pairwise hsorted pfx none)
  have hf2 : (apiFiles bucket pfx (some c) (.int i₂)).files
      = (Q.drop r1.length).take (min i₂ 1000).toNat := by
    rw [apiFiles_files bucket pfx (some c) i₂ h₂, hQ2]
  refine ⟨(Q.drop r1.length).drop (min i₂ 1000).toNat, ?_⟩
  rw [hf2, List.take_append_drop]
  exact hsplit

/-- C1 witness: a concrete three-document bucket, paged one document at a
time through the returned cursor. -/
theorem listCursorResumeWitness :
    ∃ rest, qualList wBucket "" none =
      (apiFiles wBucket "" none (.int 1)).files
        ++ ((apiFiles wBucket "" (some "a.pdf") (.int 1)).files ++ rest) :=
  listCursorResume wBucket "" 1 1 "a.pdf"
    (by unfold keysAscending; decide) (by norm_num) (by norm_num) (by decide)

/-- C3 counterexample: the handler does not clamp the limit from below.
With a one-document bucket, `limit = 0` returns no files, while every
request with a limit of at least 1 (which a clamp into `[1, 1000]` would
produce) returns the document — so no effective limit in `[1, 1000]`
reproduces the `limit = 0` behaviour. -/
theorem limitClampCounterexample :
    (apiFiles wBucket "" none (.int 0)).files = [] ∧
    ¬ ∃ v : Int, 1 ≤ v ∧
        apiFiles wBucket "" none (.int 0) = apiFiles wBucket "" none (.int v) := by
  constructor
  · decide
  · rintro ⟨v, hv, heq⟩
    have hvf : (apiFiles wBucket "" none (.int v)).files
        = (qualList wBucket "" none).take (min v 1000).toNat :=
      apiFiles_files wBucket "" none v (by omega)
    have hq : qualList wBucket "" none = wBucket := by decide
    have hne : (apiFiles wBucket "" none (.int v)).files ≠ [] := by
      rw [hvf, hq]
      intro hnil
      rcases List.take_eq_nil_iff.mp hnil with h | h
      · omega
      · exact absurd h (by decide)
    exact hne (by rw [← heq]; decide)

/-- C3 amended: the parsed limit is clamped from above by 1000 (so a limit
above 1000 behaves as 1000) and a missing limit defaults to 100, but there
is no lower clamp: a parsed limit at most 0 yields an empty `files` list. -/
theorem limitClampAmended (bucket : List Obj) (pfx : String)
    (cursor : Option String) (i : Int) :
    (1 ≤ i → (apiFiles bucket pfx cursor (.int i)).files
        = (qualList bucket pfx cursor).take (min i 1000).toNat) ∧
    (i ≤ 0 → (apiFiles bucket pfx cursor (.int i)).files = []) := by
  constructor
  · intro h1
    exact apiFiles_files bucket pfx cursor i (by omega)
  · intro h0
    rcases lt_or_eq_of_le h0 with hlt | heq
    · -- a negative limit: the loop guard `files.length <= limit` fails at
      -- once and the slice of the empty collection is empty
      dsimp only [apiFiles, jsMin, fetchLoop]
      rw [fetchLoopAux_neg _ _ _ _ _ (by simp [jsLe]; omega)]
      simp [jsSlice]
    · -- limit 0: the loop may run, but `slice(0, 0)` is empty
      rw [heq]
      rw [apiFiles_files bucket pfx cursor 0 le_rfl]
      simp

/-- C3 amended witness: a limit of 2000 behaves as 1000, and a limit of 0
yields no files, on the concrete bucket. -/
theorem limitClampAmendedWitness :
    (apiFiles wBucket "" none (.int 2000)).files
      = (qualList wBucket "" none).take (min (2000 : Int) 1000).toNat ∧
    (apiFiles wBucket "" none (.int 0)).files = [] :=
  ⟨(limitClampAmended wBucket "" none 2000).1 (by norm_num),
   (limitClampAmended wBucket "" none 0).2 le_rfl⟩

/-- C4: for a limit in `[1, 1000]`, the listing returns exactly `limit`
files whenever at least `limit` qualifying documents remain after the
cursor, and returns fewer only when the qualifying stream is exhausted (in
which case it returns all of it). -/
theorem listExactLimit (bucket : List Obj) (pfx : String)
    (cursor : Option String) (i : Int) (h₁ : 1 ≤ i) (h₂ : i ≤ 1000) :
    (i.toNat ≤ (qualList bucket pfx cursor).length →
       (apiFiles bucket pfx cursor (.int i)).files.length = i.toNat) ∧
    ((apiFiles bucket pfx cursor (.int i)).files.length < i.toNat →
       (apiFiles bucket pfx cursor (.int i)).files.length
         = (qualList bucket pfx cursor).length) := by
  have hf := apiFiles_files bucket pfx cursor i (by omega)
  have hmin : min i 1000 = i := min_eq_left h₂
  rw [hmin] at hf
  rw [hf, List.length_take]
  constructor <;> omega

/-- C4 witness: limit 2 over three qualifying documents returns exactly 2. -/
theorem listExactLimitWitness :
    (apiFiles wBucket "" none (.int 2)).files.length = (2 : Int).toNat :=
  (listExactLimit wBucket "" none 2 (by norm_num) (by norm_num)).1 (by decide)

/-! ### The stable sort's contract -/

lemma mem_insertOrdered (le : Obj → Obj → Bool) (a x : Obj) :
    ∀ l : List Obj, x ∈ insertOrdered le a l ↔ x = a ∨ x ∈ l := by
  intro l
  induction l with
  | nil => simp [insertOrdered]
  | cons b t ih =>
      by_cases h : le a b = true
      · simp [insertOrdered, h]
      · simp only [insertOrdered, if_neg h, List.mem_cons, ih]
        tauto

lemma insertOrdered_perm (le : Obj → Obj → Bool) (a : Obj) :
    ∀ l : List Obj, (insertOrdered le a l).Perm (a :: l) := by
  intro l
  induction l with
  | nil => simp [insertOrdered]
  | cons b t ih =>
      by_cases h : le a b = true
      · simp [insertOrdered, h]
      · rw [insertOrdered, if_neg h]
        exact (ih.cons b).trans (List.Perm.swap a b t)

lemma stableSort_perm (le : Obj → Obj → Bool) :
    ∀ l : List Obj, (stableSort le l).Perm l := by
  intro l
  induction l with
  | nil => rfl
  | cons a t ih =>
      rw [stableSort]
      exact (insertOrdered_perm le a (stableSort le t)).trans (ih.cons a)

lemma insertOrdered_pairwise (le : Obj → Obj → Bool)
    (htot : ∀ x y, le x y = false → le y x = true)
    (htr : ∀ x y z, le x y = true → le y z = true → le x z = true)
    (a : Obj) :
    ∀ l : List Obj, l.Pairwise (fun x y => le x y = true) →
      (insertOrdered le a l).Pairwise (fun x y => le x y = true) := by
  intro l
  induction l with
  | nil => intro _; simp [insertOrdered]
  | cons b t ih =>
      intro hs
      rw [List.pairwise_cons] at hs
      by_cases h : le a b = true
      · rw [insertOrdered, if_pos h, List.pairwise_cons]
        refine ⟨?_, List.pairwise_cons.mpr hs⟩
        intro x hx
        rcases List.mem_cons.mp hx with hxb | hxt
        · rw [hxb]; exact h
        · exact htr a b x h (hs.1 x hxt)
      · rw [insertOrdered, if_neg h, List.pairwise_cons]
        refine ⟨?_, ih hs.2⟩
        intro x hx
        rcases (mem_insertOrdered le a x t).mp hx with hxa | hxt
        · rw [hxa]; exact htot a b (by simpa using h)
        · exact hs.1 x hxt

lemma stableSort_pairwise (le : Obj → Obj → Bool)
    (htot : ∀ x y, le x y = false → le y x = true)
    (htr : ∀ x y z, le x y = true → le y z = true → le x z = true) :
    ∀ l : List Obj,
      (stableSort le l).Pairwise (fun x y => le x y = true) := by
  intro l
  induction l with
  | nil => simp [stableSort]
  | cons a t ih =>
      rw [stableSort]
      exact insertOrdered_pairwise le htot htr a (stableSort le t) ih

lemma filter_insertOrdered_pos (le : Obj → Obj → Bool) (p : Obj → Bool)
    (a : Obj) (hpa : p a = true)
    (hcl : ∀ x y, p x = true → p y = true → le x y = true) :
    ∀ l : List Obj, (insertOrdered le a l).filter p = a :: l.filter p := by
  intro l
  induction l with
  | nil => simp [insertOrdered, hpa]
  | cons b t ih =>
      by_cases h : le a b = true
      · rw [insertOrdered, if_pos h, List.filter_cons_of_pos hpa]
      · have hpb : p b = false := by
          cases hb : p b
          · rfl
          · exact absurd (hcl a b hpa hb) (by simpa using h)
        rw [insertOrdered, if_neg h, List.filter_cons_of_neg (by simp [hpb]),
          ih, List.filter_cons_of_neg (by simp [hpb])]

lemma filter_insertOrdered_neg (le : Obj → Obj → Bool) (p : Obj → Bool)
    (a : Obj) (hpa : p a = false) :
    ∀ l : List Obj, (insertOrdered le a l).filter p = l.filter p := by
  intro l
  induction l with
  | nil => simp [insertOrdered, hpa]
  | cons b t ih =>
      by_cases h : le a b = true
      · rw [insertOrdered, if_pos h, List.filter_cons_of_neg (by simp [hpa])]
      · rw [insertOrdered, if_neg h]
        cases hb : p b
        · rw [List.filter_cons_of_neg (by simp [hb]), ih,
            List.filter_cons_of_neg (by simp [hb])]
        · rw [List.filter_cons_of_pos hb, ih, List.filter_cons_of_pos hb]

lemma stableSort_filter (le : Obj → Obj → Bool) (p : Obj → Bool)
    (hcl : ∀ x y, p x = true → p y = true → le x y = true) :
    ∀ l : List Obj, (stableSort le l).filter p = l.filter p := by
  intro l
  induction l with
  | nil => rfl
  | cons a t ih =>
      cases hpa : p a
      · rw [stableSort, filter_insertOrdered_neg le p a hpa, ih,
          List.filter_cons_of_neg (by simp [hpa])]
      · rw [stableSort, filter_insertOrdered_pos le p a hpa hcl, ih,
          List.filter_cons_of_pos hpa]

lemma keyLe_total (x y : Obj) : keyLe x y = false → keyLe y x = true := by
  intro h
  unfold keyLe at h ⊢
  simp only [Bool.not_eq_false'] at h
  simp [strLt_asymm h]

lemma keyLe_trans (x y z : Obj) :
    keyLe x y = true → keyLe y z = true → keyLe x z = true := by
  unfold keyLe
  intro h1 h2
  simp only [Bool.not_eq_true'] at h1 h2
  cases hzx : strLt z.key x.key
  · simp
  · exfalso
    cases hyz : strLt y.key z.key
    · have heq : y.key = z.key := strLt_connex hyz h2
      rw [← heq] at hzx
      rw [h1] at hzx
      exact Bool.false_ne_true hzx
    · have h3 : strLt y.key x.key = true := strLt_trans hyz hzx
      rw [h1] at h3
      exact Bool.false_ne_true h3

/-- C10: the files-by-keys endpoint returns metadata exactly for those
requested keys that exist in the store (absent keys are silently omitted,
not errors), the files come back sorted by key regardless of the request
order, and `totalReturned` equals the number of files returned. -/
theorem filesByKeysSpec (bucket : List Obj) (keys : List String) :
    (apiFilesByKeys bucket keys).files.Pairwise (fun a b => keyLe a b = true) ∧
    (∀ o ∈ (apiFilesByKeys bucket keys).files, o ∈ bucket ∧ o.key ∈ keys) ∧
    (∀ k ∈ keys, (∃ o ∈ bucket, o.key = k) →
      ∃ o ∈ (apiFilesByKeys bucket keys).files, o.key = k) ∧
    (apiFilesByKeys bucket keys).totalReturned
      = (apiFilesByKeys bucket keys).files.length := by
  unfold apiFilesByKeys
  dsimp only
  refine ⟨?_, ?_, ?_, rfl⟩
  · exact stableSort_pairwise keyLe keyLe_total keyLe_trans _
  · intro o ho
    have ho' : o ∈ keys.filterMap (headObj bucket) :=
      ((stableSort_perm keyLe _).mem_iff).mp ho
    obtain ⟨k, hk, hfind⟩ := List.mem_filterMap.mp ho'
    have hmem : o ∈ bucket := List.mem_of_find?_eq_some hfind
    have hkey : o.key = k := by
      have := List.find?_some hfind
      simpa using this
    exact ⟨hmem, hkey ▸ hk⟩
  · rintro k hk ⟨o, ho, hko⟩
    have hsome : (headObj bucket k).isSome := by
      rw [headObj, List.find?_isSome]
      exact ⟨o, ho, by simp [hko]⟩
    obtain ⟨o', ho'⟩ := Option.isSome_iff_exists.mp hsome
    have hkey : o'.key = k := by
      have := List.find?_some ho'
      simpa using this
    refine ⟨o', ?_, hkey⟩
    exact ((stableSort_perm keyLe _).mem_iff).mpr
      (List.mem_filterMap.mpr ⟨k, hk, ho'⟩)

/-- C10 witness: requesting two existing keys and one absent key, out of
order, yields the existing document. -/
theorem filesByKeysSpecWitness :
    ∃ o ∈ (apiFilesByKeys wBucket ["b.pdf", "zzz", "a.pdf"]).files,
      o.key = "b.pdf" :=
  (filesByKeysSpec wBucket ["b.pdf", "zzz", "a.pdf"]).2.2.1 "b.pdf"
    (by decide) ⟨wObjB, by decide, rfl⟩

/-! ### The sort comparators -/

lemma modeLe_total (mode : String) (x y : Obj) :
    modeLe mode x y = false → modeLe mode y x = true := by
  unfold modeLe
  split_ifs <;> intro h
  · simp only [decide_eq_false_iff_not, not_le] at h
    simp only [decide_eq_true_eq]
    omega
  · simp only [decide_eq_false_iff_not, not_le] at h
    simp only [decide_eq_true_eq]
    omega
  · simp only [decide_eq_false_iff_not, not_le] at h
    simp only [decide_eq_true_eq]
    omega
  · simp only [decide_eq_false_iff_not, not_le] at h
    simp only [decide_eq_true_eq]
    omega
  · simp only [Bool.not_eq_false'] at h
    simp [strLt_asymm h]

lemma modeLe_trans (mode : String) (x y z : Obj) :
    modeLe mode x y = true → modeLe mode y z = true →
    modeLe mode x z = true := by
  unfold modeLe
  split_ifs <;> intro h1 h2
  · simp only [decide_eq_true_eq] at h1 h2 ⊢; omega
  · simp only [decide_eq_true_eq] at h1 h2 ⊢; omega
  · simp only [decide_eq_true_eq] at h1 h2 ⊢; omega
  · simp only [decide_eq_true_eq] at h1 h2 ⊢; omega
  · simp only [Bool.not_eq_true'] at h1 h2
    cases hzx : strLt (getFileId z.key) (getFileId x.key)
    · simp
    · exfalso
      cases hyz : strLt (getFileId y.key) (getFileId z.key)
      · have heq : getFileId y.key = getFileId z.key := strLt_connex hyz h2
        rw [← heq] at hzx
        rw [h1] at hzx
        exact Bool.false_ne_true hzx
      · have h3 : strLt (getFileId y.key) (getFileId x.key) = true :=
          strLt_trans hyz hzx
        rw [h1] at h3
        exact Bool.false_ne_true h3

/-- C9 counterexample: ties are not broken by key.  Two documents of equal
size, fed to the `size-asc` sort in the two possible arrival orders (the
same document set), come out as two different key sequences — the stable
sort keeps arrival order on ties instead of key order. -/
theorem sortTieCounterexample :
    ([tieY, tieX].Perm [tieX, tieY]) ∧
    (sortFiles "size-asc" [tieY, tieX]).map (fun o => o.key)
      ≠ (sortFiles "size-asc" [tieX, tieY]).map (fun o => o.key) := by
  constructor
  · exact List.Perm.swap tieX tieY []
  · decide

/-- C9 amended: every comparator (name, size ascending/descending, upload
time ascending/descending) is applied through a stable sort: the output is
a permutation of the input sorted by the comparator, and comparator-tied
elements keep their input order (ties are broken by input position, not by
key).  The resulting key sequence is therefore deterministic for the same
input sequence, but not for permutations of the same input set. -/
theorem sortModesStable (mode : String) (l : List Obj) :
    (sortFiles mode l).Perm l ∧
    (sortFiles mode l).Pairwise (fun a b => modeLe mode a b = true) ∧
    (∀ p : Obj → Bool,
      (∀ x y, p x = true → p y = true → modeLe mode x y = true) →
      (sortFiles mode l).filter p = l.filter p) := by
  refine ⟨stableSort_perm _ l,
    stableSort_pairwise _ (modeLe_total mode) (modeLe_trans mode) l, ?_⟩
  intro p hcl
  exact stableSort_filter _ p hcl l

/-- C9 amended witness: the size-5 tie class keeps its input order through
the `size-asc` sort. -/
theorem sortModesStableWitness :
    (sortFiles "size-asc" [tieY, tieX]).filter (fun o => decide (o.size = 5))
      = [tieY, tieX].filter (fun o => decide (o.size = 5)) :=
  (sortModesStable "size-asc" [tieY, tieX]).2.2 (fun o => decide (o.size = 5))
    (by
      intro x y hx hy
      simp only [decide_eq_true_eq] at hx hy
      show decide (x.size ≤ y.size) = true
      simp [hx, hy])

/-! ### Navigation lemmas -/

lemma findIndexJs_eq_neg_one (p : Obj → Bool) :
    ∀ l : List Obj, (∀ x ∈ l, p x = false) → findIndexJs p l = -1 := by
  intro l
  induction l with
  | nil => intro _; rfl
  | cons a t ih =>
      intro h
      rw [findIndexJs, if_neg (by simp [h a (by simp)]),
        if_pos (ih fun x hx => h x (by simp [hx]))]

lemma findIndexJs_spec (p : Obj → Bool) :
    ∀ l : List Obj, findIndexJs p l ≠ -1 →
      ∃ n : Nat, findIndexJs p l = (n : Int) ∧ n < l.length ∧
        ∃ a, l.get? n = some a ∧ p a = true := by
  intro l
  induction l with
  | nil => intro h; exact absurd rfl h
  | cons b t ih =>
      intro h
      by_cases hb : p b = true
      · exact ⟨0, by rw [findIndexJs, if_pos hb]; rfl, by simp, b, rfl, hb⟩
      · have hb' : ¬ p b = true := hb
        rw [findIndexJs, if_neg hb'] at h ⊢
        by_cases hr : findIndexJs p t = -1
        · rw [if_pos hr] at h
          exact absurd rfl h
        · rw [if_neg hr]
          obtain ⟨n, hn, hlen, a, ha, hpa⟩ := ih hr
          refine ⟨n + 1, by rw [hn]; push_cast; ring, by simpa using hlen,
            a, by simpa using ha, hpa⟩

lemma findIndexJs_of_get? (l : List Obj)
    (hnd : (l.map (fun f => f.key)).Nodup) :
    ∀ (n : Nat) (a : Obj), l.get? n = some a →
      findIndexJs (fun f => f.key == a.key) l = (n : Int) := by
  induction l with
  | nil => intro n a h; simp at h
  | cons b t ih =>
      intro n a h
      rw [List.map_cons, List.nodup_cons] at hnd
      cases n with
      | zero =>
          have hab : b = a := by simpa using h
          rw [findIndexJs, if_pos (by simp [hab])]
          simp
      | succ n =>
          have hgt : t.get? n = some a := by simpa using h
          have hmem : a.key ∈ t.map (fun f => f.key) :=
            List.mem_map.mpr ⟨a, List.get?_mem hgt, rfl⟩
          have hbk : (b.key == a.key) = false := by
            rw [beq_eq_false_iff_ne]
            intro hk
            exact hnd.1 (hk ▸ hmem)
          have hr := ih hnd.2 n a hgt
          rw [findIndexJs, if_neg (by simp [hbk]), if_neg (by rw [hr]; omega),
            hr]
          push_cast
          ring

lemma getAdjacentFile_some (files : List Obj) (k k' : String) (off : Int)
    (h : getAdjacentFile files k off = some k') :
    ∃ (n : Nat) (a b : Obj),
      files.get? n = some a ∧ a.key = k ∧ n < files.length ∧
      findIndexJs (fun f => f.key == k) files = (n : Int) ∧
      0 ≤ (n : Int) + off ∧ (n : Int) + off < (files.length : Int) ∧
      files.get? ((n : Int) + off).toNat = some b ∧ b.key = k' := by
  simp only [getAdjacentFile] at h
  by_cases h1 : findIndexJs (fun f => f.key == k) files = -1
  · rw [if_pos h1] at h
    exact absurd h (by simp)
  · rw [if_neg h1] at h
    obtain ⟨n, hn, hlen, a, ha, hpa⟩ := findIndexJs_spec _ files h1
    rw [hn] at h
    by_cases h2 : (n : Int) + off < 0 ∨ (files.length : Int) ≤ (n : Int) + off
    · rw [if_pos h2] at h
      exact absurd h (by simp)
    · rw [if_neg h2] at h
      push_neg at h2
      obtain ⟨b, hb, hbk⟩ := Option.map_eq_some'.mp h
      exact ⟨n, a, b, ha, by simpa using hpa, hlen, hn, h2.1, h2.2, hb, hbk⟩

/-- C7: `getAdjacentFile` returns `null` for every key absent from the
view (at any offset), returns `null` when stepping back from the first
position, and — for a view whose keys are pairwise distinct, as the data
model guarantees — returns `null` when stepping forward from the last
position: no wraparound. -/
theorem adjacentBoundary (files : List Obj) :
    (∀ k : String, (∀ f ∈ files, f.key ≠ k) →
      ∀ off : Int, getAdjacentFile files k off = none) ∧
    (∀ a : Obj, files.head? = some a →
      getAdjacentFile files a.key (-1) = none) ∧
    ((files.map (fun f => f.key)).Nodup →
      ∀ a : Obj, files.getLast? = some a →
        getAdjacentFile files a.key 1 = none) := by
  refine ⟨?_, ?_, ?_⟩
  · intro k hk off
    have hidx : findIndexJs (fun f => f.key == k) files = -1 :=
      findIndexJs_eq_neg_one _ files fun x hx => by
        rw [beq_eq_false_iff_ne]
        exact hk x hx
    simp [getAdjacentFile, hidx]
  · intro a ha
    cases files with
    | nil => simp at ha
    | cons b t =>
        have hab : b = a := by simpa using ha
        rw [← hab]
        have hidx : findIndexJs (fun f => f.key == b.key) (b :: t) = 0 := by
          rw [findIndexJs, if_pos (by simp)]
        simp [getAdjacentFile, hidx]
  · intro hnd a ha
    have hdec := getLast?_decomp ha
    have hget : files.get? files.dropLast.length = some a := by
      have hcat := List.get?_concat_length files.dropLast a
      rw [← hdec] at hcat
      exact hcat
    have hidx := findIndexJs_of_get? files hnd files.dropLast.length a hget
    have hlen : files.length = files.dropLast.length + 1 := by
      have := congrArg List.length hdec
      simpa using this
    simp only [getAdjacentFile, hidx]
    rw [if_neg (by omega), if_pos (by omega)]

/-- C7 witness: the three-document view has no neighbour before the first
key, none after the last, and none for an absent key. -/
theorem adjacentBoundaryWitness :
    getAdjacentFile wBucket "zzz" 1 = none ∧
    getAdjacentFile wBucket "a.pdf" (-1) = none ∧
    getAdjacentFile wBucket "c.pdf" 1 = none :=
  ⟨(adjacentBoundary wBucket).1 "zzz" (by decide) 1,
   (adjacentBoundary wBucket).2.1 wObjA (by decide),
   (adjacentBoundary wBucket).2.2 (by decide) wObjC (by decide)⟩

/-- C8: on a view with pairwise-distinct keys, stepping forward then
backward is the identity, and symmetrically: whenever `adjacent(k, +1)`
returns `k'`, `adjacent(k', -1)` returns `k` (and the same with the
directions exchanged). -/
theorem adjacentInverse (files : List Obj)
    (hnd : (files.map (fun f => f.key)).Nodup) (k k' : String) :
    (getAdjacentFile files k 1 = some k' →
      getAdjacentFile files k' (-1) = some k) ∧
    (getAdjacentFile files k (-1) = some k' →
      getAdjacentFile files k' 1 = some k) := by
  constructor
  · intro h
    obtain ⟨n, a, b, ha, hak, hlen, hidx, hge, hlt, hb, hbk⟩ :=
      getAdjacentFile_some files k k' 1 h
    have htn : ((n : Int) + 1).toNat = n + 1 := by omega
    rw [htn] at hb
    have hidx' := findIndexJs_of_get? files hnd (n + 1) b hb
    rw [hbk] at hidx'
    simp only [getAdjacentFile, hidx']
    rw [if_neg (by omega), if_neg (by omega)]
    have harg : (((n + 1 : Nat) : Int) + (-1)).toNat = n := by omega
    rw [harg, ha]
    simp [hak]
  · intro h
    obtain ⟨n, a, b, ha, hak, hlen, hidx, hge, hlt, hb, hbk⟩ :=
      getAdjacentFile_some files k k' (-1) h
    have htn : ((n : Int) + (-1)).toNat = n - 1 := by omega
    rw [htn] at hb
    have hidx' := findIndexJs_of_get? files hnd (n - 1) b hb
    rw [hbk] at hidx'
    simp only [getAdjacentFile, hidx']
    rw [if_neg (by omega), if_neg (by omega)]
    have harg : (((n - 1 : Nat) : Int) + 1).toNat = n := by omega
    rw [harg, ha]
    simp [hak]

/-! ### Prefetch dedup and failure handling -/

lemma contains_filter_ne (l : List String) (k : String) :
    (l.filter (fun x => !(x == k))).contains k = false := by
  cases hc : (l.filter (fun x => !(x == k))).contains k
  · rfl
  · exfalso
    have hm : k ∈ l.filter (fun x => !(x == k)) := List.elem_iff.mp hc
    have := (List.mem_filter.mp hm).2
    simp at this

/-- C2: the prefetch guard deduplicates.  For a key with no cache entry and
no pending prefetch, a `prefetchPdf` call starts exactly one render (one new
entry in the render log) and a second call issued while the first is still
in flight is a no-op starting nothing; a call for a key already pending, or
already cached, is a no-op that performs no render work. -/
theorem prefetchDedup (s : PrefetchState) (k : String) :
    (getPdfPages s k = none → s.prefetching.contains k = false →
      (prefetchStart s k).2 = true ∧
      (prefetchStart s k).1.renderLog = s.renderLog ++ [k] ∧
      prefetchStart (prefetchStart s k).1 k = ((prefetchStart s k).1, false)) ∧
    (s.prefetching.contains k = true → prefetchStart s k = (s, false)) ∧
    ((getPdfPages s k).isSome = true → prefetchStart s k = (s, false)) := by
  refine ⟨?_, ?_, ?_⟩
  · intro hc hp
    have hs1 : prefetchStart s k
        = ({ s with prefetching := k :: s.prefetching, renderLog := s.renderLog ++ [k] }, true) := by
      rw [prefetchStart, if_neg (by rw [hc, hp]; simp)]
    refine ⟨by rw [hs1], by rw [hs1], ?_⟩
    rw [hs1]
    rw [prefetchStart, if_pos (by simp [List.elem_iff])]
  · intro hp
    rw [prefetchStart, if_pos (by rw [hp]; simp)]
  · intro hc
    rw [prefetchStart, if_pos (by rw [hc]; simp)]

/-- C2 witness: starting from an empty state, the first call starts the
render and a concurrent second call is a no-op. -/
theorem prefetchDedupWitness :
    (prefetchStart ⟨[], [], []⟩ "k.pdf").2 = true ∧
    (prefetchStart ⟨[], [], []⟩ "k.pdf").1.renderLog = [] ++ ["k.pdf"] ∧
    prefetchStart (prefetchStart ⟨[], [], []⟩ "k.pdf").1 "k.pdf"
      = ((prefetchStart ⟨[], [], []⟩ "k.pdf").1, false) :=
  (prefetchDedup ⟨[], [], []⟩ "k.pdf").1 (by decide) (by decide)

/-- C5: a failed render leaves the cache exactly as it was for its key (in
particular no entry when there was none), the key's prefetch-set membership
is removed on completion or failure regardless of outcome, a subsequent
submit after a failure starts the render again (retry-by-revisit), and a
successful render stores the complete page list. -/
theorem prefetchFailureClean (s : PrefetchState) (k : String)
    (pages : List String) :
    (getPdfPages (prefetchFinishFailure s k) k = getPdfPages s k) ∧
    ((prefetchFinishFailure s k).prefetching.contains k = false) ∧
    ((prefetchFinishSuccess s k pages).prefetching.contains k = false) ∧
    (pages ≠ [] → getPdfPages (prefetchFinishSuccess s k pages) k = some pages) ∧
    (getPdfPages s k = none → s.prefetching.contains k = false →
      (prefetchStart (prefetchFinishFailure (prefetchStart s k).1 k) k).2
        = true) := by
  refine ⟨rfl, contains_filter_ne _ _, ?_, ?_, ?_⟩
  · rw [prefetchFinishSuccess]
    by_cases hp : pages.isEmpty
    · rw [if_pos hp]
      exact contains_filter_ne _ _
    · rw [if_neg hp]
      exact contains_filter_ne _ _
  · intro hne
    rw [prefetchFinishSuccess, if_neg (by simp [hne])]
    rw [getPdfPages]
    simp [setPdfPages]
  · intro hc hp
    have hs1 : prefetchStart s k
        = ({ s with prefetching := k :: s.prefetching, renderLog := s.renderLog ++ [k] }, true) := by
      rw [prefetchStart, if_neg (by rw [hc, hp]; simp)]
    rw [hs1]
    have hnone : getPdfPages
        (prefetchFinishFailure
          { s with prefetching := k :: s.prefetching, renderLog := s.renderLog ++ [k] }
          k) k = none := hc
    have hcont : (prefetchFinishFailure
        { s with prefetching := k :: s.prefetching, renderLog := s.renderLog ++ [k] }
        k).prefetching.contains k = false := contains_filter_ne _ _
    rw [prefetchStart, if_neg (by rw [hnone, hcont]; simp)]

/-- C5 witness: a concrete failing render for an uncached key — the cache
stays empty, the prefetch set is cleared, and the next submit starts the
render again. -/
theorem prefetchFailureCleanWitness :
    (getPdfPages (prefetchFinishFailure ⟨[], ["k.pdf"], ["k.pdf"]⟩ "k.pdf")
        "k.pdf" = getPdfPages ⟨[], ["k.pdf"], ["k.pdf"]⟩ "k.pdf") ∧
    ((prefetchFinishFailure ⟨[], ["k.pdf"], ["k.pdf"]⟩ "k.pdf").prefetching.contains
        "k.pdf" = false) ∧
    ((prefetchStart (prefetchFinishFailure
        (prefetchStart ⟨[], [], []⟩ "k.pdf").1 "k.pdf") "k.pdf").2 = true) :=
  ⟨(prefetchFailureClean ⟨[], ["k.pdf"], ["k.pdf"]⟩ "k.pdf" []).1,
   (prefetchFailureClean ⟨[], ["k.pdf"], ["k.pdf"]⟩ "k.pdf" []).2.1,
   (prefetchFailureClean ⟨[], [], []⟩ "k.pdf" []).2.2.2.2 (by decide) (by decide)⟩

/-! ### LoadQueue invariants -/

lemma processQueue_running (s : LoadQueueState)
    (h : s.running.length ≤ maxConcurrent) :
    (processQueue s).running.length ≤ maxConcurrent := by
  rcases s with ⟨q, r, st, sub⟩
  simp only [processQueue]
  split_ifs with hfull
  · exact h
  · cases q with
    | nil => exact h
    | cons t rest =>
        simp only [List.length_cons]
        simp only [not_le] at hfull
        exact hfull

lemma processQueue_order (s : LoadQueueState) :
    (processQueue s).started ++ (processQueue s).queue = s.started ++ s.queue
    ∧ (processQueue s).submitted = s.submitted := by
  rcases s with ⟨q, r, st, sub⟩
  simp only [processQueue]
  split_ifs with hfull
  · exact ⟨rfl, rfl⟩
  · cases q with
    | nil => exact ⟨rfl, rfl⟩
    | cons t rest =>
        refine ⟨?_, rfl⟩
        simp

lemma queue_invariant : ∀ s : LoadQueueState, QueueReachable s →
    s.running.length ≤ maxConcurrent ∧ s.started ++ s.queue = s.submitted := by
  intro s h
  induction h with
  | init => exact ⟨by norm_num [initQueue, maxConcurrent], rfl⟩
  | add t hs ih =>
      rename_i s'
      constructor
      · exact processQueue_running _ ih.1
      · rw [addTask]
        have ho := processQueue_order
          { s' with queue := s'.queue ++ [t], submitted := s'.submitted ++ [t] }
        rw [ho.1, ho.2]
        show s'.started ++ (s'.queue ++ [t]) = s'.submitted ++ [t]
        rw [← List.append_assoc, ih.2]
  | finish t hmem hs ih =>
      rename_i s'
      constructor
      · refine processQueue_running _ ?_
        show (s'.running.erase t).length ≤ maxConcurrent
        exact le_trans (s'.running.erase_sublist t).length_le ih.1
      · rw [finishTask]
        have ho := processQueue_order { s' with running := s'.running.erase t }
        rw [ho.1, ho.2]
        exact ih.2

/-- C6: in every reachable state of the `LoadQueue`, at most `maxConcurrent`
(= 3) tasks run at once; tasks are started in FIFO submission order (the
start log followed by the still-queued tasks is always exactly the
submission log); and a finishing task immediately starts the next queued
task. -/
theorem loadQueueBounded :
    (∀ s : LoadQueueState, QueueReachable s →
      s.running.length ≤ maxConcurrent) ∧
    (∀ s : LoadQueueState, QueueReachable s →
      s.started ++ s.queue = s.submitted) ∧
    (∀ (s : LoadQueueState) (t q : Nat) (rest : List Nat),
      QueueReachable s → t ∈ s.running → s.queue = q :: rest →
      (finishTask s t).started = s.started ++ [q] ∧
      q ∈ (finishTask s t).running) := by
  refine ⟨fun s h => (queue_invariant s h).1,
    fun s h => (queue_invariant s h).2, ?_⟩
  intro s t q rest hreach hmem hq
  have hb := (queue_invariant s hreach).1
  have hmax : maxConcurrent = 3 := rfl
  have herase : (s.running.erase t).length = s.running.length - 1 :=
    List.length_erase_of_mem hmem
  have hpos : 1 ≤ s.running.length :=
    List.length_pos.mpr (List.ne_nil_of_mem hmem)
  rcases s with ⟨sq, sr, sst, ssub⟩
  simp only at hq hb herase hpos
  subst hq
  rw [finishTask]
  simp only [processQueue]
  rw [if_neg (by simp only at *; omega)]
  exact ⟨rfl, by simp⟩

/-- C6 witness: four tasks submitted to the fresh queue — only three run;
finishing one immediately starts the fourth. -/
theorem loadQueueBoundedWitness :
    (addTask (addTask (addTask (addTask initQueue 1) 2) 3) 4).running.length
      ≤ maxConcurrent ∧
    (finishTask (addTask (addTask (addTask (addTask initQueue 1) 2) 3) 4)
        2).started
      = (addTask (addTask (addTask (addTask initQueue 1) 2) 3) 4).started
        ++ [4] := by
  have hreach :
      QueueReachable (addTask (addTask (addTask (addTask initQueue 1) 2) 3) 4) :=
    QueueReachable.add 4 (QueueReachable.add 3
      (QueueReachable.add 2 (QueueReachable.add 1 QueueReachable.init)))
  exact ⟨loadQueueBounded.1 _ hreach,
    (loadQueueBounded.2.2 _ 2 4 [] hreach (by decide) (by decide)).1⟩

/-- C8 witness: stepping forward from "a.pdf" gives "b.pdf", and stepping
back from "b.pdf" returns "a.pdf". -/
theorem adjacentInverseWitness :
    getAdjacentFile wBucket "a.pdf" 1 = some "b.pdf" ∧
    getAdjacentFile wBucket "b.pdf" (-1) = some "a.pdf" := by
  have h1 : getAdjacentFile wBucket "a.pdf" 1 = some "b.pdf" := by decide
  exact ⟨h1, (adjacentInverse wBucket (by decide) "a.pdf" "b.pdf").1 h1⟩
